import Mathlib

/-!
Verification of the protoc-gen-graphql schema-translation core.

Shallow embedding of the repository's schema-translation engine:

* `Proto`   — the descriptor-side data (field kinds, messages, enums),
  mirroring the slice of `protoreflect`/`protogen` the generator reads.
* `Gql`     — the `gqltypes` package (`ProtoKindToGraphQL`, `ShouldFederate`,
  `ProtoEnumToGraphQL`, the `Schema`/`Type`/`Field`/`Input`/`Enum` model).
* `Builder` — the schema-model builder (`walkMethod`, `getInputType`,
  `getOutputType`, `getFieldType`, `getEnumType`, `newSchema`,
  `getMethodName`, `cleanComment`) from the generator that populates
  `gqltypes.Schema` values, plus the walk/print pipeline.
* `GenV2`   — `generator.go`'s `loadTemplate` fallback logic and
  `hasEntityOption`/field-key extraction.

Messages form an arbitrary object graph in Go (`*protogen.Message` pointers,
possibly cyclic, and two distinct messages may share an unqualified
`Desc.Name()`).  The embedding therefore keys messages by index into
`Proto.Env.msgs` (indices play the role of pointers) and instruments the
unbounded Go recursion of `getOutputType`/`getFieldType` with explicit fuel:
`none` means the recursion did not complete within the given fuel (for a
cyclic graph, within any fuel).
-/

namespace Proto

/-- `protoreflect.Kind`.  `group` is the remaining concrete kind hit by the
`default` branch of `ProtoKindToGraphQL`'s switch. -/
inductive PKind where
  | bool | int32 | sint32 | sfixed32 | int64 | sint64 | sfixed64
  | uint32 | fixed32 | uint64 | fixed64
  | float | double
  | string | bytes
  | enum | message | group
deriving DecidableEq, Repr, Fintype, Inhabited

/-- One proto field as the builder reads it: JSON name (`Desc.JSONName()`),
leading comment, kind, `IsList()`, `HasPresence()`, and the optional
`f.Message` / `f.Enum` references (indices into the environment). -/
structure FieldDef where
  jsonName : String
  comment : String := ""
  kind : PKind
  isList : Bool := false
  hasPresence : Bool := false
  msgRef : Option Nat := none
  enumRef : Option Nat := none
deriving DecidableEq, Repr, Inhabited

/-- One proto message: `Desc.Name()`, leading comment, fields in declaration
order. -/
structure MessageDef where
  name : String
  comment : String := ""
  fields : List FieldDef := []
deriving DecidableEq, Repr, Inhabited

/-- One proto enum value: `Name()` and `Number()`. -/
structure EnumValDef where
  name : String
  number : Int
deriving DecidableEq, Repr, Inhabited

/-- One proto enum: `Desc.Name()`, `Desc.FullName()`, values in order. -/
structure EnumDef where
  name : String
  fullName : String := ""
  values : List EnumValDef := []
deriving DecidableEq, Repr, Inhabited

/-- The descriptor graph reachable by the builder.  Message indices stand for
`*protogen.Message` pointers; distinct indices may carry the same `name`,
and `msgRef` edges may form cycles. -/
structure Env where
  msgs : List MessageDef := []
  enums : List EnumDef := []
deriving DecidableEq, Repr, Inhabited

/-- One service method: `Desc.Name()`, leading comment, and its input and
output message references. -/
structure MethodDef where
  name : String
  comment : String := ""
  inputMsg : Nat
  outputMsg : Nat
deriving DecidableEq, Repr, Inhabited

/-- One service: `Desc.FullName()` and its methods in declaration order. -/
structure ServiceDef where
  fullName : String
  methods : List MethodDef := []
deriving DecidableEq, Repr, Inhabited

end Proto

namespace GoStr

/-!  The `strings` functions the generator uses, implemented over the
character list of a `String` (Go strings are byte strings; every string the
generator manipulates is ASCII, where bytes and characters coincide). -/

/-- `strings.ToLower` (ASCII range, as exercised by the generator). -/
def toLower (s : String) : String :=
  String.mk (s.data.map Char.toLower)

/-- `strings.HasSuffix`. -/
def hasSuffix (s suffix : String) : Bool :=
  suffix.data.isSuffixOf s.data

/-- `strings.HasPrefix`. -/
def startsWith (s p : String) : Bool :=
  p.data.isPrefixOf s.data

/-- `strings.TrimSuffix`. -/
def trimSuffix (s suffix : String) : String :=
  if hasSuffix s suffix then
    String.mk (s.data.take (s.data.length - suffix.data.length))
  else s

/-- `strings.Split(s, ".")[0]`: the part before the first dot. -/
def firstDotPart (s : String) : String :=
  String.mk (s.data.takeWhile fun c => c != '.')

/-- `filepath.Base` for the slash-separated template paths the generator
passes it (no trailing slashes): the part after the last slash. -/
def lastSlashPart (s : String) : String :=
  String.mk ((s.data.reverse.takeWhile fun c => c != '/').reverse)

end GoStr

namespace Gql

/-- `gqltypes.Field` as it occurs inside a `Type`/`Input`: the builder only
ever fills `Name`, `Type`, `Comment`, `IsRequired` there (`Inputs` stays nil;
it is populated only on root-query/mutation fields, modelled separately as
`RootField`). -/
structure GField where
  name : String
  type : String
  comment : String := ""
  isRequired : Bool := false
deriving DecidableEq, Repr, Inhabited

/-- `gqltypes.Type` (non-root): name, ordered fields, comment, federation
flag and single key-field name. -/
structure GType where
  name : String
  fields : List GField := []
  comment : String := ""
  isFederatedEntity : Bool := false
  keyFields : String := ""
deriving DecidableEq, Repr, Inhabited

/-- `gqltypes.Input`. -/
structure GInput where
  name : String
  fields : List GField := []
  comment : String := ""
deriving DecidableEq, Repr, Inhabited

/-- `gqltypes.EnumOption`. -/
structure GEnumOption where
  name : String
  comment : String := ""
deriving DecidableEq, Repr, Inhabited

/-- `gqltypes.Enum`. -/
structure GEnum where
  name : String
  options : List GEnumOption := []
  comment : String := ""
deriving DecidableEq, Repr, Inhabited

/-- A root field (an entry of `RootQuery.Fields`/`RootMutation.Fields`):
these are the `gqltypes.Field` values built by `walkMethod`, the only ones
whose `Inputs` slice is populated. -/
structure RootField where
  name : String
  type : String
  comment : String := ""
  inputs : List GInput := []
deriving DecidableEq, Repr, Inhabited

/-- The root `Query`/`Mutation` object (a `gqltypes.Type` used as a root:
only `Name` and `Fields` are ever touched on it). -/
structure RootType where
  name : String
  fields : List RootField := []
deriving DecidableEq, Repr, Inhabited

/-- `gqltypes.Schema`. -/
structure Schema where
  serviceName : String := ""
  rootQuery : RootType
  rootMutation : RootType
  types : List GType := []
  inputs : List GInput := []
  enums : List GEnum := []
deriving DecidableEq, Repr, Inhabited

/-- `gqltypes.ProtoKindToGraphQL` (tools/protoc-gen-graphql, gqltypes
package).  Note the source maps `StringKind` to `"ID"`, `MessageKind` to
`"Object"`, and never looks at `isRequired`. -/
def ProtoKindToGraphQL (kind : Proto.PKind) (isRepeated : Bool)
    (isRequired : Bool) : String :=
  let baseType :=
    match kind with
    | .bool => "Boolean"
    | .int32 | .sint32 | .sfixed32 | .int64 | .sint64 | .sfixed64
    | .uint32 | .fixed32 | .uint64 | .fixed64 => "Int"
    | .float | .double => "Float"
    | .string => "ID"
    | .bytes => "String"
    | .enum => "String"
    | .message => "Object"
    | .group => "String"
  let _ := isRequired
  if isRepeated then "[" ++ baseType ++ "]" else baseType

/-- The loop body of `(*Type).ShouldFederate`: scan the fields in order and
stop at the first whose name ends in `"Id"` and which is required. -/
def federateLoop (t : GType) : List GField → GType × Bool
  | [] => (t, false)
  | f :: fs =>
    if GoStr.hasSuffix f.name "Id" && f.isRequired then
      ({ t with isFederatedEntity := true, keyFields := f.name }, true)
    else federateLoop t fs

/-- `(*Type).ShouldFederate` (gqltypes): sets `IsFederatedEntity`/`KeyFields`
from the first field whose name has suffix `"Id"` and which is required;
returns the (possibly updated) type together with the boolean the Go method
returns. -/
def ShouldFederate (t : GType) : GType × Bool :=
  federateLoop t t.fields

/-- A freshly built `User`-like output type whose single field carries the
JSON name `userId` and has presence (is required). -/
def uType : GType :=
  { name := "User"
    fields := [{ name := "userId", type := "ID", isRequired := true }] }

/-- `gqltypes.ProtoEnumToGraphQL`. -/
def ProtoEnumToGraphQL (e : Proto.EnumDef) : GEnum :=
  { name := e.name
    options := e.values.map fun v =>
      { name := v.name, comment := "Value: " ++ toString v.number }
    comment := e.fullName }

end Gql

namespace Builder

open Proto Gql

/-- Characters matched by Go's regexp `\s` (`[\t\n\f\r ]`). -/
def isReSpace (c : Char) : Bool :=
  c == ' ' || c == '\t' || c == '\n' || c == '\r' || c == Char.ofNat 12

/-- ASCII white space trimmed by Go's `strings.TrimSpace`
(`\t\n\v\f\r` and space). -/
def isTrimSpace (c : Char) : Bool :=
  isReSpace c || c == Char.ofNat 11

/-- The replacement pass of `commentRe = regexp.MustCompile("\n\\s*//\\s*")`
with `ReplaceAllString(comment, " ")`: each newline followed by optional
white space, `//`, and optional white space collapses to a single space.
Structural recursion on a length bound (`dropWhile` never grows the list,
so the bound is never exhausted). -/
def replContAux : Nat → List Char → List Char
  | 0, l => l
  | _ + 1, [] => []
  | n + 1, '\n' :: rest =>
    match rest.dropWhile isReSpace with
    | '/' :: '/' :: rest2 => ' ' :: replContAux n (rest2.dropWhile isReSpace)
    | _ => '\n' :: replContAux n rest
  | n + 1, c :: rest => c :: replContAux n rest

/-- See `replContAux`. -/
def replCont (l : List Char) : List Char :=
  replContAux l.length l

/-- `cleanComment`: `TrimLeft(comment, "*/\n ")`, then the `commentRe`
replacement, then `TrimSpace`. -/
def cleanComment (comment : String) : String :=
  if comment = "" then ""
  else
    let l := comment.data.dropWhile fun c =>
      c == '*' || c == '/' || c == '\n' || c == ' '
    let l := replCont l
    let l := (((l.dropWhile isTrimSpace).reverse.dropWhile isTrimSpace).reverse)
    String.mk l

/-- `newSchema`. -/
def newSchema : Schema :=
  { rootQuery := { name := "Query" }
    rootMutation := { name := "Mutation" }
    types := []
    inputs := []
    enums := [] }

/-- `getMethodName`: `strings.ToLower(string(n[0])) + n[1:]`.  The Go code
indexes byte 0 unconditionally and panics on an empty name; the embedding
returns `none` there.  (Proto method names are ASCII identifiers, so the
byte/char distinction is immaterial.) -/
def getMethodName (n : String) : Option String :=
  match n.data with
  | [] => none
  | c :: rest => some (String.mk (c.toLower :: rest))

/-- The query test in `walkMethod`: the lower-cased method name starts with
`get`, `list` or `search`. -/
def isQueryName (n : String) : Bool :=
  GoStr.startsWith (GoStr.toLower n) "get" ||
    GoStr.startsWith (GoStr.toLower n) "list" ||
    GoStr.startsWith (GoStr.toLower n) "search"

/-- `getInputTypeName`: `TrimSuffix(name, "Request") + "Input"`. -/
def getInputTypeName (m : MessageDef) : String :=
  GoStr.trimSuffix m.name "Request" ++ "Input"

/-- `getEnumType`: look the enum's name up in `s.Enums`; on a miss append
`ProtoEnumToGraphQL`'s translation.  Either way the Go function returns the
name.  (`none` only on a dangling enum reference, impossible in Go.) -/
def getEnumType (env : Env) (s : Schema) (j : Nat) : Option (Schema × String) :=
  match env.enums[j]? with
  | none => none
  | some e =>
    match s.enums.find? (fun g => g.name == e.name) with
    | some _ => some (s, e.name)
    | none => some ({ s with enums := s.enums ++ [ProtoEnumToGraphQL e] }, e.name)

/-- `getFieldType`, parameterised by the recursive call into
`getOutputType` (`recOut`): a message field resolves to the registered
output type's name, an enum field through `getEnumType`, anything else
through `ProtoKindToGraphQL`. -/
def getFieldTypeAux (recOut : Schema → Nat → Option (Schema × GType))
    (env : Env) (s : Schema) (f : FieldDef) : Option (Schema × String) :=
  match f.msgRef with
  | some j =>
    match recOut s j with
    | none => none
    | some (s1, t) => some (s1, t.name)
  | none =>
    match f.enumRef with
    | some j => getEnumType env s j
    | none => some (s, ProtoKindToGraphQL f.kind f.isList f.hasPresence)

/-- The field loop shared by `getInputType` and `getOutputType`: build one
`gqltypes.Field` per proto field (JSON name, resolved type, cleaned comment,
`HasPresence` as `IsRequired`), threading the schema through
`getFieldType`. -/
def buildFieldsAux (recOut : Schema → Nat → Option (Schema × GType))
    (env : Env) : Schema → List FieldDef → Option (Schema × List GField)
  | s, [] => some (s, [])
  | s, f :: fs =>
    match getFieldTypeAux recOut env s f with
    | none => none
    | some (s1, ty) =>
      match buildFieldsAux recOut env s1 fs with
      | none => none
      | some (s2, rest) =>
        some (s2, { name := f.jsonName, type := ty,
                    comment := cleanComment f.comment,
                    isRequired := f.hasPresence } :: rest)

/-- `getOutputType`, fuel-instrumented.  Faithful to the source: the
existence check on `s.Types` happens on entry, the fields are walked (which
may register other types), `ShouldFederate` runs, and only then is the new
type appended — there is no visited set, so a cyclic message graph recurses
until the fuel runs out (`none`). -/
def getOutputType (env : Env) : Nat → Schema → Nat → Option (Schema × GType)
  | 0, _, _ => none
  | n + 1, s, i =>
    match env.msgs[i]? with
    | none => none
    | some m =>
      match s.types.find? (fun t => t.name == m.name) with
      | some t => some (s, t)
      | none =>
        match buildFieldsAux (getOutputType env n) env s m.fields with
        | none => none
        | some (s1, flds) =>
          let out := (ShouldFederate
            { name := m.name, fields := flds,
              comment := cleanComment m.comment }).1
          some ({ s1 with types := s1.types ++ [out] }, out)

/-- `getInputType`: derive the input name, reuse a registered input of that
name unchanged, otherwise walk the fields (which may register output types
and enums) and append the new input. -/
def getInputType (env : Env) (n : Nat) (s : Schema) (i : Nat) :
    Option (Schema × GInput) :=
  match env.msgs[i]? with
  | none => none
  | some m =>
    let name := getInputTypeName m
    match s.inputs.find? (fun inp => inp.name == name) with
    | some inp => some (s, inp)
    | none =>
      match buildFieldsAux (getOutputType env n) env s m.fields with
      | none => none
      | some (s1, flds) =>
        let inp : GInput :=
          { name := name, fields := flds, comment := cleanComment m.comment }
        some ({ s1 with inputs := s1.inputs ++ [inp] }, inp)

/-- The `Generator` state of the builder: the keys of `g.services` (the
stored `*protogen.Service` values are never read back) and `g.schemas`,
a map from service full name to its `Schema`.  The Go maps are modelled as
association lists with unique keys; map iteration order is never used by the
code, only keyed lookup. -/
structure GenState where
  services : List String := []
  schemas : List (String × Schema) := []
deriving DecidableEq, Repr, Inhabited

/-- `g.schemas[k]`. -/
def lookupSchema (st : GenState) (k : String) : Option Schema :=
  (st.schemas.find? (fun p => p.1 == k)).map (·.2)

/-- Writing back through the `*Schema` pointer stored in `g.schemas[k]`. -/
def setSchema (st : GenState) (k : String) (s : Schema) : GenState :=
  { st with schemas := st.schemas.map fun p => if p.1 == k then (k, s) else p }

/-- The schema `walkMethod` creates on first sight of a service:
`newSchema()` with `ServiceName` set to the first dot-separated component of
the service full name, with a `v1` suffix trimmed. -/
def initSchemaFor (svcFullName : String) : Schema :=
  let pkg := GoStr.firstDotPart svcFullName
  { newSchema with serviceName := GoStr.trimSuffix pkg "v1" }

/-- The two guarded registration blocks at the top of `walkMethod`.  The
first block (keyed on `g.services`) registers the service and its fresh
schema; the second block re-checks the same key and is therefore dead code,
kept here as the no-op it is. -/
def ensureSchema (st : GenState) (k : String) : GenState :=
  let st1 :=
    if st.services.contains k then st
    else { services := st.services ++ [k]
           schemas := st.schemas ++ [(k, initSchemaFor k)] }
  if st1.services.contains k then st1
  else { services := st1.services ++ [k]
         schemas := st1.schemas ++ [(k, newSchema)] }

/-- Appending the method's root field to `RootQuery` or `RootMutation`. -/
def appendRoot (s : Schema) (isQuery : Bool) (f : RootField) : Schema :=
  if isQuery then
    { s with rootQuery :=
        { s.rootQuery with fields := s.rootQuery.fields ++ [f] } }
  else
    { s with rootMutation :=
        { s.rootMutation with fields := s.rootMutation.fields ++ [f] } }

/-- The per-method body of `walkMethod` acting on the service's schema:
resolve the input type, then the output type, build the root field and
append it to the query or mutation root. -/
def methodCore (env : Env) (n : Nat) (s : Schema) (m : MethodDef) :
    Option Schema :=
  match getInputType env n s m.inputMsg with
  | none => none
  | some (s1, input) =>
    match getOutputType env n s1 m.outputMsg with
    | none => none
    | some (s2, output) =>
      match getMethodName m.name with
      | none => none
      | some fname =>
        some (appendRoot s2 (isQueryName m.name)
          { name := fname, comment := cleanComment m.comment,
            inputs := [input], type := output.name })

/-- `walkMethod` for a method of the service named `k`
(`string(m.Parent.Desc.FullName())`): register the service/schema if new,
run the method body on the schema stored under `k`, and store the result. -/
def walkMethod (env : Env) (n : Nat) (st : GenState) (k : String)
    (m : MethodDef) : Option GenState :=
  let st1 := ensureSchema st k
  match lookupSchema st1 k with
  | none => none
  | some s =>
    match methodCore env n s m with
    | none => none
    | some s3 => some (setSchema st1 k s3)

/-- The inner loop of `walkSchemas` over one service's methods. -/
def walkMethods (env : Env) (n : Nat) : GenState → String → List MethodDef →
    Option GenState
  | st, _, [] => some st
  | st, k, m :: ms =>
    match walkMethod env n st k m with
    | none => none
    | some st1 => walkMethods env n st1 k ms

/-- `walkSchemas` over the generated files' services (files with
`Generate == false` are skipped before this point; services appear here in
file order). -/
def walkAll (env : Env) (n : Nat) : GenState → List ServiceDef →
    Option GenState
  | st, [] => some st
  | st, svc :: rest =>
    match walkMethods env n st svc.fullName svc.methods with
    | none => none
    | some st1 => walkAll env n st1 rest

/-- `methodCore` applied to the current entry under the service key, with a
fresh `initSchemaFor` schema when the key is absent — the denotation of one
`walkMethod` call at its own key. -/
def methodStep (env : Env) (n : Nat) (k : String) (o : Option Schema)
    (m : MethodDef) : Option Schema :=
  methodCore env n (o.getD (initSchemaFor k)) m

/-- Folding `methodStep` over a method list: the denotation of
`walkMethods` at its own service key. -/
def methodsStep (env : Env) (n : Nat) (k : String) :
    Option Schema → List MethodDef → Option (Option Schema)
  | o, [] => some o
  | o, m :: ms =>
    match methodStep env n k o m with
    | none => none
    | some s => methodsStep env n k (some s) ms

/-- `printSchemas`/`printServiceSchema`, with the template execution
abstracted as `render` (the embedded template is read and parsed afresh for
every service, so each artifact is a pure function of the service and the
schema stored under its full name). -/
def outputsFor (render : ServiceDef → Option Schema → String)
    (st : GenState) (svcs : List ServiceDef) : List (String × String) :=
  svcs.map fun svc =>
    (svc.fullName ++ ".graphql", render svc (lookupSchema st svc.fullName))

/-- `Generate`: walk every service's methods, then print each service. -/
def runAll (env : Env) (n : Nat)
    (render : ServiceDef → Option Schema → String)
    (svcs : List ServiceDef) : Option (List (String × String)) :=
  match walkAll env n {} svcs with
  | none => none
  | some st => some (outputsFor render st svcs)

/-! ### Predicates about environments and schemas -/

/-- Every message/enum reference of every field lands inside the
environment (in Go, `f.Message`/`f.Enum` are never dangling pointers). -/
def envWF (env : Env) : Bool :=
  env.msgs.all fun m => m.fields.all fun f =>
    (match f.msgRef with
     | some j => decide (j < env.msgs.length)
     | none => true) &&
    (match f.enumRef with
     | some j => decide (j < env.enums.length)
     | none => true)

/-- Distinct messages carry distinct (unqualified) names. -/
def distinctNames (env : Env) : Bool :=
  (List.range env.msgs.length).all fun i =>
    (List.range env.msgs.length).all fun j =>
      !((env.msgs.getD i default).name == (env.msgs.getD j default).name) ||
        i == j

/-- `rank` witnesses that the message-reference graph is acyclic: every
message-typed field points to a message of strictly smaller rank. -/
def rankOK (env : Env) (rank : Nat → Nat) : Bool :=
  (List.range env.msgs.length).all fun i =>
    (env.msgs.getD i default).fields.all fun f =>
      match f.msgRef with
      | some j => decide (rank j < rank i)
      | none => true

/-- The registered output-type names of a schema, in registration order. -/
def typeNames (s : Schema) : List String := s.types.map (·.name)

/-- The registered input names of a schema. -/
def inputNames (s : Schema) : List String := s.inputs.map (·.name)

/-- The registered enum names of a schema. -/
def enumNames (s : Schema) : List String := s.enums.map (·.name)

/-- Type, input and enum names are each pairwise distinct. -/
def SchemaNodup (s : Schema) : Prop :=
  (typeNames s).Nodup ∧ (inputNames s).Nodup ∧ (enumNames s).Nodup

/-- Every schema in the generator state satisfies `SchemaNodup`. -/
def StateNodup (st : GenState) : Prop :=
  ∀ p ∈ st.schemas, SchemaNodup p.2

/-- The root objects carry their fixed names. -/
def RootsOK (s : Schema) : Prop :=
  s.rootQuery.name = "Query" ∧ s.rootMutation.name = "Mutation"

/-- Every schema in the generator state satisfies `RootsOK`. -/
def StateRootsOK (st : GenState) : Prop :=
  ∀ p ∈ st.schemas, RootsOK p.2

/-- The parts of the schema the output-type traversal never writes:
roots, service name, and the inputs registry (relation form, for chaining
across walk steps). -/
def MiscPres (a b : Schema) : Prop :=
  b.rootQuery = a.rootQuery ∧ b.rootMutation = a.rootMutation ∧
    b.serviceName = a.serviceName ∧ b.inputs = a.inputs

/-- Between `a` and `b`, the types registry only grew, and every appended
name is the name of some message of rank below `r`. -/
def TypesGrow (env : Env) (rank : Nat → Nat) (r : Nat) (a b : Schema) : Prop :=
  ∃ d, b.types = a.types ++ d ∧
    ∀ nm ∈ d.map Gql.GType.name,
      ∃ j m, env.msgs[j]? = some m ∧ m.name = nm ∧ rank j < r

/-- Uniqueness of type names and of enum names is preserved from `a` to
`b`. -/
def NodupPres (a b : Schema) : Prop :=
  ((typeNames a).Nodup → (typeNames b).Nodup) ∧
    ((enumNames a).Nodup → (enumNames b).Nodup)

/-- The combined invariant carried through `getOutputType` on name-distinct
acyclic environments. -/
def GotInv (env : Env) (rank : Nat → Nat) (r : Nat) (a b : Schema) : Prop :=
  MiscPres a b ∧ TypesGrow env rank r a b ∧ NodupPres a b

instance (s : Schema) : Decidable (SchemaNodup s) := by
  unfold SchemaNodup; infer_instance

instance (st : GenState) : Decidable (StateNodup st) := by
  unfold StateNodup; infer_instance

instance (s : Schema) : Decidable (RootsOK s) := by
  unfold RootsOK; infer_instance

instance (st : GenState) : Decidable (StateRootsOK st) := by
  unfold StateRootsOK; infer_instance

/-! ### Concrete descriptor graphs for counterexamples and witnesses -/

/-- A message `A` whose single field references `A` itself — the smallest
cyclic message graph. -/
def cycEnv : Env :=
  { msgs := [{ name := "A",
               fields := [{ jsonName := "self", kind := .message,
                            msgRef := some 0 }] }] }

/-- Three distinct messages named `A`, `B`, `A`: message `0` references
message `1`, which references message `2`.  The two messages named `A` model
same-named messages from different proto packages (`Desc.Name()` is
unqualified). -/
def dupEnv : Env :=
  { msgs :=
    [ { name := "A",
        fields := [{ jsonName := "b", kind := .message, msgRef := some 1 }] }
    , { name := "B",
        fields := [{ jsonName := "a2", kind := .message, msgRef := some 2 }] }
    , { name := "A", fields := [] } ] }

/-- An acyclic widget-service descriptor graph:
`GetWidgetRequest{widget_id}`, `GetWidgetResponse{widget: Widget}`,
`Widget{widget_id (with presence)}`. -/
def wEnv : Env :=
  { msgs :=
    [ { name := "GetWidgetRequest",
        fields := [{ jsonName := "widgetId", kind := .string }] }
    , { name := "GetWidgetResponse",
        fields := [{ jsonName := "widget", kind := .message,
                     msgRef := some 2 }] }
    , { name := "Widget",
        fields := [{ jsonName := "widgetId", kind := .string,
                     hasPresence := true }] } ] }

/-- A rank function witnessing `wEnv`'s acyclicity. -/
def wRank : Nat → Nat := fun i => if i == 1 then 1 else 0

/-- `GetWidget`, the query-classified method of the widget service. -/
def wMethod : MethodDef := { name := "GetWidget", inputMsg := 0, outputMsg := 1 }

/-- `CreateWidget`, a mutation-classified method over the same messages. -/
def wMethodCreate : MethodDef :=
  { name := "CreateWidget", inputMsg := 0, outputMsg := 1 }

/-- The widget service. -/
def wService : ServiceDef :=
  { fullName := "widgets.v1.WidgetService", methods := [wMethod] }

/-- A second service over the same environment. -/
def wServiceB : ServiceDef :=
  { fullName := "widgets.v1.WidgetAdminService", methods := [wMethodCreate] }

/-- The generator state after walking `wMethod` from the empty state. -/
def wStateAfter : GenState :=
  (walkMethod wEnv 9 {} "widgets.v1.WidgetService" wMethod).getD default

/-- The widget service's schema inside `wStateAfter`. -/
def wSchemaAfter : Schema :=
  (lookupSchema wStateAfter "widgets.v1.WidgetService").getD default

/-- The generator states after walking `[wService, wServiceB]` and its
permutation `[wServiceB, wService]` from the empty state. -/
def wStateAB : GenState :=
  (walkAll wEnv 9 {} [wService, wServiceB]).getD default

/-- See `wStateAB`. -/
def wStateBA : GenState :=
  (walkAll wEnv 9 {} [wServiceB, wService]).getD default

/-- A concrete render function for witnesses: the registered type names. -/
def wRender : ServiceDef → Option Schema → String := fun svc o =>
  svc.fullName ++ ":" ++
    String.intercalate "," ((o.map typeNames).getD [])

end Builder

namespace GenV2

/-- The message-side input of `hasEntityOption` (generator.go): the message
name and the explicit boolean `entity` option at extension number 50001.
`entityOpt = some b` models the case where every step of the
`Options().ProtoReflect()…ByNumber(50001)` chain succeeds and the value is
valid (readable) with boolean value `b`; `none` models a missing or
unreadable option (any nil/invalid short-circuit in the chain). -/
structure MsgDesc where
  name : String
  entityOpt : Option Bool := none
deriving DecidableEq, Repr, Inhabited

/-- `hasEntityOption`: the name-based check against the hardcoded
`Product`/`Order`/`User` list runs first; only when it misses is the
explicit option consulted, defaulting to `false`. -/
def hasEntityOption (m : MsgDesc) : Bool :=
  if m.name == "Product" || m.name == "Order" || m.name == "User" then true
  else
    match m.entityOpt with
    | some b => b
    | none => false

/-- The field-side input of the key computation in `extractFields`:
`Desc.Name()` and the explicit `key` option at extension number 50001
(same readable/unreadable modelling as `MsgDesc.entityOpt`). -/
structure FieldDesc where
  name : String
  keyOpt : Option Bool := none
deriving DecidableEq, Repr, Inhabited

/-- The `isKey` computation in `extractFields`: the `_id`-suffix heuristic
first, then the explicit option overwrites it whenever it is readable. -/
def fieldIsKey (f : FieldDesc) : Bool :=
  let isKey := GoStr.hasSuffix f.name "_id"
  match f.keyOpt with
  | some b => b
  | none => isKey

/-- A parsed template, as far as the generator observes it: `template.New`'s
name and the text it was parsed from.  The parse itself (`t.Parse`) is kept
abstract as a parameter of type `String → String → Option Tmpl`, `none`
standing for a parse error. -/
structure Tmpl where
  name : String
  content : String
deriving DecidableEq, Repr, Inhabited

/-- `filepath.Base` for the slash-separated paths the generator uses. -/
def baseName (path : String) : String :=
  GoStr.lastSlashPart path

/-- `defaultTemplatePath`. -/
def defaultTemplatePath : String := "templates/graphql-service-schema.tmpl"

/-- `loadTemplate` (generator.go): with a non-empty configured path, try to
read and parse it, falling back to the embedded template on a read or parse
failure (each logged); with an empty path go straight to the embedded
template.  Failure to read or parse the embedded template is the only error.
`readFile` models `os.ReadFile` (`none` = error), `embedded` models
`templatesFS.ReadFile`, `parse` models `template.New(…).Funcs(funcMap).Parse`. -/
def loadTemplate (readFile : String → Option String)
    (embedded : String → Option String)
    (parse : String → String → Option Tmpl)
    (templatePath : String) : Except String Tmpl :=
  let fallback : Except String Tmpl :=
    match embedded defaultTemplatePath with
    | none => .error "failed to read embedded template"
    | some content =>
      match parse (baseName defaultTemplatePath) content with
      | none => .error "failed to parse embedded template"
      | some t => .ok t
  if templatePath ≠ "" then
    match readFile templatePath with
    | none => fallback
    | some content =>
      match parse (baseName templatePath) content with
      | none => fallback
      | some t => .ok t
  else fallback

/-- A file system on which every read fails. -/
def cReadFile : String → Option String := fun _ => none

/-- The embedded FS: exactly the default template, with content `"TPL"`. -/
def cEmbedded : String → Option String := fun p =>
  if p == defaultTemplatePath then some "TPL" else none

/-- A parse that always succeeds, recording name and content. -/
def cParse : String → String → Option Tmpl := fun nm c => some { name := nm, content := c }

/-- A concrete template execution for witnesses. -/
def cExec : Tmpl → Proto.ServiceDef → String := fun t svc =>
  t.content ++ ":" ++ svc.fullName

/-- `newGenerator` + `Generate`, with the per-service rendering of the
loaded template abstracted as `exec`: the generator's only use of the
configuration is which template `loadTemplate` hands back; every service is
then rendered with that template. -/
def runGenerator (readFile : String → Option String)
    (embedded : String → Option String)
    (parse : String → String → Option Tmpl)
    (exec : Tmpl → Proto.ServiceDef → String)
    (templatePath : String)
    (svcs : List Proto.ServiceDef) : Except String (List (String × String)) :=
  match loadTemplate readFile embedded parse templatePath with
  | .error e => .error e
  | .ok t =>
    .ok (svcs.map fun svc => (svc.fullName ++ ".graphql", exec t svc))

end GenV2

/-! ## Claims -/

open Proto Gql GoStr Builder GenV2

/-! ### C4 — the type-kind mapper -/

/-- C4 counterexample: the claim says the string kind maps to `String` and
required fields receive a trailing `!`; the source maps the string kind to
`"ID"` and never appends `!` (the `isRequired` parameter is unused), so a
required non-repeated string field maps to `"ID"`, not `"String"` or
`"String!"`, and a required bool maps to `"Boolean"`, not `"Boolean!"`. -/
theorem c4_counterexample :
    ProtoKindToGraphQL .string false true = "ID" ∧ "ID" ≠ "String" ∧
      "ID" ≠ "String!" ∧
      ProtoKindToGraphQL .bool false true = "Boolean" ∧
      "Boolean" ≠ "Boolean!" := by
  decide

/-- C4 amended: `ProtoKindToGraphQL` maps every integer kind to `Int`,
float/double to `Float`, bool to `Boolean`, string to `ID`, bytes and enum
to `String`, message to `Object` and the remaining (unknown) kind to
`String`, never failing; repetition wraps the base type in `[...]`; the
required flag has no effect on the result (no `!` suffix is ever added). -/
theorem c4_amended :
    (∀ q : Bool,
      ProtoKindToGraphQL .int32 false q = "Int" ∧
      ProtoKindToGraphQL .sint32 false q = "Int" ∧
      ProtoKindToGraphQL .sfixed32 false q = "Int" ∧
      ProtoKindToGraphQL .int64 false q = "Int" ∧
      ProtoKindToGraphQL .sint64 false q = "Int" ∧
      ProtoKindToGraphQL .sfixed64 false q = "Int" ∧
      ProtoKindToGraphQL .uint32 false q = "Int" ∧
      ProtoKindToGraphQL .fixed32 false q = "Int" ∧
      ProtoKindToGraphQL .uint64 false q = "Int" ∧
      ProtoKindToGraphQL .fixed64 false q = "Int" ∧
      ProtoKindToGraphQL .float false q = "Float" ∧
      ProtoKindToGraphQL .double false q = "Float" ∧
      ProtoKindToGraphQL .bool false q = "Boolean" ∧
      ProtoKindToGraphQL .string false q = "ID" ∧
      ProtoKindToGraphQL .bytes false q = "String" ∧
      ProtoKindToGraphQL .enum false q = "String" ∧
      ProtoKindToGraphQL .message false q = "Object" ∧
      ProtoKindToGraphQL .group false q = "String") ∧
    (∀ (k : Proto.PKind) (q : Bool),
      ProtoKindToGraphQL k true q = "[" ++ ProtoKindToGraphQL k false q ++ "]") ∧
    (∀ (k : Proto.PKind) (r : Bool),
      ProtoKindToGraphQL k r true = ProtoKindToGraphQL k r false) := by
  decide

/-! ### C2 — federation of output types (`ShouldFederate`) -/

/-- The key predicate `ShouldFederate` actually tests on a field. -/
theorem federateLoop_flag (t : GType) (h : t.isFederatedEntity = false) :
    ∀ fs : List GField,
      ((federateLoop t fs).1.isFederatedEntity = true) ↔
        fs.any (fun f => GoStr.hasSuffix f.name "Id" && f.isRequired) = true := by
  intro fs
  induction fs with
  | nil => simp [federateLoop, h]
  | cons f fs ih =>
    by_cases hp : (GoStr.hasSuffix f.name "Id" && f.isRequired) = true
    · simp [federateLoop, hp]
    · simp only [federateLoop, Bool.not_eq_true] at hp ⊢
      simp [hp, ih]

/-- The first matching field's name becomes `KeyFields`, and the Go method
returns `true`. -/
theorem federateLoop_key (t : GType) :
    ∀ (fs : List GField) (f : GField),
      fs.find? (fun f => GoStr.hasSuffix f.name "Id" && f.isRequired) = some f →
      (federateLoop t fs).1.keyFields = f.name ∧ (federateLoop t fs).2 = true := by
  intro fs
  induction fs with
  | nil => intro f hf; simp [List.find?] at hf
  | cons g fs ih =>
    intro f hf
    rw [List.find?_cons] at hf
    cases hp : (GoStr.hasSuffix g.name "Id" && g.isRequired) with
    | true =>
      rw [hp] at hf
      cases hf
      simp [federateLoop, hp]
    | false =>
      rw [hp] at hf
      simp only [federateLoop, hp, Bool.false_eq_true, if_false]
      exact ih f hf

/-- C2 counterexample: the claim's heuristic ("ends in `_id`, or the
camel-cased equivalent ending in `Id`") marks both of these types federated,
but the source's `ShouldFederate` marks neither: a required field literally
named `user_id` fails the case-sensitive `"Id"` suffix test, and a field
named `userId` without presence fails the `IsRequired` test (in the builder
pipeline a plain proto3 `user_id` field is stored under its JSON name
`userId` with `IsRequired = HasPresence() = false`, so it too is not
marked). -/
theorem c2_counterexample :
    (ShouldFederate ⟨"User", [⟨"user_id", "ID", "", true⟩], "", false, ""⟩).1.isFederatedEntity = false ∧
    (ShouldFederate ⟨"User", [⟨"userId", "ID", "", false⟩], "", false, ""⟩).1.isFederatedEntity = false ∧
    (ShouldFederate ⟨"User", [⟨"user_id", "ID", "", true⟩], "", false, ""⟩).1.keyFields = "" := by
  decide

/-- C2 amended: for a freshly built output type (federation flag still
`false`), `ShouldFederate` sets `IsFederatedEntity` iff some field's name
ends in `"Id"` (case-sensitively — the JSON-cased form of a `_id` proto
field) *and* that field is required (`HasPresence`); `KeyFields` receives
the name of the first such field. -/
theorem c2_amended (t : GType) (h : t.isFederatedEntity = false) :
    (((ShouldFederate t).1.isFederatedEntity = true) ↔
      t.fields.any (fun f => GoStr.hasSuffix f.name "Id" && f.isRequired) = true) ∧
    (∀ f, t.fields.find?
        (fun f => GoStr.hasSuffix f.name "Id" && f.isRequired) = some f →
      (ShouldFederate t).1.keyFields = f.name ∧ (ShouldFederate t).2 = true) :=
  ⟨federateLoop_flag t h t.fields, fun f hf => federateLoop_key t t.fields f hf⟩

/-- C2 amended, witnessed on `uType` (`userId`, required): it is marked a
federated entity. -/
theorem c2_amended_witness :
    uType.isFederatedEntity = false ∧
      (ShouldFederate uType).1.isFederatedEntity = true :=
  ⟨by decide, (c2_amended uType (by decide)).1.mpr (by decide)⟩

/-! ### C3 — explicit entity/key metadata vs. the name heuristic -/

/-- C3: evaluating the federation classifier at the failing input.  A
message named `Product` whose explicit `entity` option is present, readable
and `false` is still classified as an entity — `hasEntityOption` consults
the hardcoded name list before the explicit option, overriding a readable
explicit "not an entity".  (For contrast: outside the hardcoded list the
readable explicit value is honored in both directions, and on the field
side a readable explicit `key = false` does override the `_id` name
heuristic, as the claim demands.) -/
theorem c3_code_evaluation :
    hasEntityOption { name := "Product", entityOpt := some false } = true ∧
    hasEntityOption { name := "Plain", entityOpt := some false } = false ∧
    hasEntityOption { name := "Plain", entityOpt := some true } = true ∧
    fieldIsKey { name := "user_id", keyOpt := some false } = false ∧
    fieldIsKey { name := "user_id", keyOpt := none } = true := by
  decide

/-! ### C10 — method-name normalization -/

/-- C10: `getMethodName` on a non-empty name returns the first character
lowercased followed by the rest of the name unchanged; on the empty name the
source indexes byte 0 of an empty string (a panic), modelled as `none` —
non-emptiness is a necessary precondition. -/
theorem c10_getMethodName_spec :
    getMethodName "" = none ∧
      ∀ (n : String), n ≠ "" →
        ∃ c r, n.data = c :: r ∧
          getMethodName n = some (String.mk (Char.toLower c :: r)) := by
  refine ⟨rfl, fun n hn => ?_⟩
  obtain ⟨data⟩ := n
  cases data with
  | nil => exact absurd rfl hn
  | cons c r => exact ⟨c, r, rfl, rfl⟩

/-- C10 witness at `"GetWidget"`. -/
theorem c10_getMethodName_spec_witness :
    ("GetWidget" : String) ≠ "" ∧
      (∃ c r, ("GetWidget" : String).data = c :: r ∧
        getMethodName "GetWidget" = some (String.mk (Char.toLower c :: r))) :=
  ⟨by decide, c10_getMethodName_spec.2 "GetWidget" (by decide)⟩

/-! ### C7 — template fallback -/

/-- C7: with a non-empty configured template path whose read fails,
`loadTemplate` produces exactly what it produces with no configured path:
the embedded default template, parsed; template loading succeeds in both
runs, and the whole generator consequently produces identical output for
every input. -/
theorem c7_loadTemplate_fallback
    (readFile embedded : String → Option String)
    (parse : String → String → Option Tmpl)
    (exec : Tmpl → Proto.ServiceDef → String)
    (path : String) (svcs : List Proto.ServiceDef) (c : String) (t : Tmpl)
    (hpath : path ≠ "") (hrf : readFile path = none)
    (hemb : embedded defaultTemplatePath = some c)
    (hparse : parse (baseName defaultTemplatePath) c = some t) :
    loadTemplate readFile embedded parse path = .ok t ∧
    loadTemplate readFile embedded parse "" = .ok t ∧
    runGenerator readFile embedded parse exec path svcs =
      runGenerator readFile embedded parse exec "" svcs := by
  have h1 : loadTemplate readFile embedded parse path = .ok t := by
    simp [loadTemplate, hpath, hrf, hemb, hparse]
  have h2 : loadTemplate readFile embedded parse "" = .ok t := by
    simp [loadTemplate, hemb, hparse]
  exact ⟨h1, h2, by simp [runGenerator, h1, h2]⟩

/-- C7 witness: a concrete unreadable path over a concrete embedded FS. -/
theorem c7_loadTemplate_fallback_witness :
    ("/custom/x.tmpl" : String) ≠ "" ∧
    cReadFile "/custom/x.tmpl" = none ∧
    cEmbedded defaultTemplatePath = some "TPL" ∧
    cParse (baseName defaultTemplatePath) "TPL" =
      some { name := baseName defaultTemplatePath, content := "TPL" } ∧
    (loadTemplate cReadFile cEmbedded cParse "/custom/x.tmpl" =
        .ok { name := baseName defaultTemplatePath, content := "TPL" } ∧
      loadTemplate cReadFile cEmbedded cParse "" =
        .ok { name := baseName defaultTemplatePath, content := "TPL" } ∧
      runGenerator cReadFile cEmbedded cParse cExec "/custom/x.tmpl" [wService] =
        runGenerator cReadFile cEmbedded cParse cExec "" [wService]) :=
  ⟨by decide, rfl, by decide, rfl,
    c7_loadTemplate_fallback cReadFile cEmbedded cParse cExec
      "/custom/x.tmpl" [wService] "TPL" _ (by decide) rfl (by decide) rfl⟩

/-! ### C1 — termination of the output-type traversal -/

/-- Pointwise reading of `envWF`. -/
theorem envWF_field {env : Env} (h : envWF env = true) {i : Nat}
    {m : MessageDef} (hm : env.msgs[i]? = some m) {f : FieldDef}
    (hf : f ∈ m.fields) :
    (∀ j, f.msgRef = some j → j < env.msgs.length) ∧
      (∀ j, f.enumRef = some j → j < env.enums.length) := by
  have hmem : m ∈ env.msgs := List.getElem?_mem hm
  have h1 := (List.all_eq_true.mp h) m hmem
  have h2 := (List.all_eq_true.mp h1) f hf
  rw [Bool.and_eq_true] at h2
  constructor
  · intro j hj
    have := h2.1
    rw [hj] at this
    simpa using this
  · intro j hj
    have := h2.2
    rw [hj] at this
    simpa using this

/-- Pointwise reading of `rankOK`. -/
theorem rankOK_field {env : Env} {rank : Nat → Nat}
    (h : rankOK env rank = true) {i : Nat} {m : MessageDef}
    (hm : env.msgs[i]? = some m) {f : FieldDef} (hf : f ∈ m.fields)
    {j : Nat} (hj : f.msgRef = some j) : rank j < rank i := by
  have hi : i < env.msgs.length := by
    by_contra hlt
    rw [List.getElem?_eq_none (by omega)] at hm
    exact Option.noConfusion hm
  have h1 := (List.all_eq_true.mp h) i (List.mem_range.mpr hi)
  have hgd : env.msgs.getD i default = m := by
    rw [List.getD_eq_getElem?_getD, hm]
    rfl
  rw [hgd] at h1
  have h2 := (List.all_eq_true.mp h1) f hf
  rw [hj] at h2
  simpa using h2

/-- Pointwise reading of `distinctNames`. -/
theorem distinctNames_eq {env : Env} (h : distinctNames env = true)
    {i j : Nat} {mi mj : MessageDef} (hmi : env.msgs[i]? = some mi)
    (hmj : env.msgs[j]? = some mj) (hname : mi.name = mj.name) : i = j := by
  have hi : i < env.msgs.length := by
    by_contra hlt
    rw [List.getElem?_eq_none (by omega)] at hmi
    exact Option.noConfusion hmi
  have hj' : j < env.msgs.length := by
    by_contra hlt
    rw [List.getElem?_eq_none (by omega)] at hmj
    exact Option.noConfusion hmj
  have h1 := (List.all_eq_true.mp h) i (List.mem_range.mpr hi)
  have h2 := (List.all_eq_true.mp h1) j (List.mem_range.mpr hj')
  have hgi : env.msgs.getD i default = mi := by
    rw [List.getD_eq_getElem?_getD, hmi]; rfl
  have hgj : env.msgs.getD j default = mj := by
    rw [List.getD_eq_getElem?_getD, hmj]; rfl
  rw [hgi, hgj] at h2
  rcases Bool.or_eq_true .. |>.mp h2 with hb | hb
  · rw [hname] at hb
    simp at hb
  · simpa using hb

/-- On the self-referencing graph `cycEnv`, the traversal exhausts any
amount of fuel: the schema passed to the nested call never contains `"A"`
because the registration happens only after the field walk completes. -/
theorem cycEnv_getOutputType_none :
    ∀ n, getOutputType cycEnv n newSchema 0 = none := by
  intro n
  induction n with
  | zero => rfl
  | succ n ih =>
    simp only [cycEnv, newSchema] at ih ⊢
    simp [getOutputType, buildFieldsAux, getFieldTypeAux, ih]

/-- C1 counterexample: the claim asserts that traversal of a message graph
with a cycle terminates; on the one-message graph whose single field
references its own message, `getOutputType` fails to complete for every
fuel bound — the recursion never terminates (there is no visited-name set;
a message's name is registered only after its field walk completes). -/
theorem c1_counterexample :
    ¬ ∃ n, (getOutputType cycEnv n newSchema 0).isSome = true := by
  rintro ⟨n, hn⟩
  rw [cycEnv_getOutputType_none n] at hn
  exact Bool.noConfusion hn

/-- Fuel sufficiency for the field walk, given it (at the same fuel level)
for the nested output resolutions. -/
theorem buildFields_isSome {env : Env} {rank : Nat → Nat} (n : Nat)
    (ih : ∀ i s, i < env.msgs.length → rank i < n →
      (getOutputType env n s i).isSome = true) :
    ∀ fields : List FieldDef,
      (∀ f ∈ fields, ∀ j, f.msgRef = some j →
        j < env.msgs.length ∧ rank j < n) →
      (∀ f ∈ fields, ∀ j, f.enumRef = some j → j < env.enums.length) →
      ∀ s, (buildFieldsAux (getOutputType env n) env s fields).isSome = true := by
  intro fields
  induction fields with
  | nil => intro _ _ s; simp [buildFieldsAux]
  | cons f fs ihf =>
    intro hmsg henum s
    have hstep : (getFieldTypeAux (getOutputType env n) env s f).isSome = true := by
      cases hmr : f.msgRef with
      | some j =>
        obtain ⟨hj, hrj⟩ := hmsg f (by simp) j hmr
        have hs := ih j s hj hrj
        rw [Option.isSome_iff_exists] at hs
        obtain ⟨⟨s1, t⟩, hout⟩ := hs
        simp [getFieldTypeAux, hmr, hout]
      | none =>
        cases her : f.enumRef with
        | some j =>
          have hj := henum f (by simp) j her
          simp only [getFieldTypeAux, hmr, her, getEnumType,
            List.getElem?_eq_getElem hj]
          cases s.enums.find? fun g => g.name == env.enums[j].name <;> simp
        | none => simp [getFieldTypeAux, hmr, her]
    rw [Option.isSome_iff_exists] at hstep
    obtain ⟨⟨s1, ty⟩, hty⟩ := hstep
    have hrest := ihf (fun f hf => hmsg f (by simp [hf]))
      (fun f hf => henum f (by simp [hf])) s1
    rw [Option.isSome_iff_exists] at hrest
    obtain ⟨⟨s2, rest⟩, hr⟩ := hrest
    simp [buildFieldsAux, hty, hr]

/-- C1 amended: on a message graph whose reference relation is well-founded
(witnessed by a rank function strictly decreasing along message-typed
fields), the traversal rooted at any message terminates: with fuel
exceeding the root's rank it produces a result, from every starting schema.
On cyclic graphs the original claim fails: the source has no visited-name
set, and a message is registered only after its field walk, so a cycle
recurses without bound. -/
theorem c1_amended (env : Env) (rank : Nat → Nat)
    (hwf : envWF env = true) (hrank : rankOK env rank = true) :
    ∀ (n : Nat) (i : Nat) (s : Schema), i < env.msgs.length → rank i < n →
      (getOutputType env n s i).isSome = true := by
  intro n
  induction n with
  | zero => intro i s _ hr; omega
  | succ n ih =>
    intro i s hi hr
    obtain ⟨m, hm⟩ : ∃ m, env.msgs[i]? = some m :=
      ⟨env.msgs[i], List.getElem?_eq_getElem hi⟩
    simp only [getOutputType, hm]
    cases hfind : s.types.find? (fun t => t.name == m.name) with
    | some t => simp
    | none =>
      have hwalk := @buildFields_isSome env rank n ih m.fields
        (fun f hf j hj => ⟨(envWF_field hwf hm hf).1 j hj, by
          have := rankOK_field hrank hm hf hj
          omega⟩)
        (fun f hf j hj => (envWF_field hwf hm hf).2 j hj) s
      rw [Option.isSome_iff_exists] at hwalk
      obtain ⟨⟨s1, flds⟩, hb⟩ := hwalk
      simp [hb]

/-- C1 amended, witnessed on the acyclic `wEnv` with rank `wRank`. -/
theorem c1_amended_witness :
    envWF wEnv = true ∧ rankOK wEnv wRank = true ∧ 1 < wEnv.msgs.length ∧
      wRank 1 < 2 ∧ (getOutputType wEnv 2 newSchema 1).isSome = true :=
  ⟨by decide, by decide, by decide, by decide,
    c1_amended wEnv wRank (by decide) (by decide) 2 1 newSchema
      (by decide) (by decide)⟩

/-! ### Preservation lemmas for the builder state -/

/-- `ShouldFederate` never changes the type's name or fields. -/
theorem federateLoop_name (t : GType) :
    ∀ fs, (federateLoop t fs).1.name = t.name ∧
      (federateLoop t fs).1.fields = t.fields := by
  intro fs
  induction fs with
  | nil => simp [federateLoop]
  | cons f fs ih =>
    by_cases hp : (GoStr.hasSuffix f.name "Id" && f.isRequired) = true
    · simp [federateLoop, hp]
    · simp only [federateLoop, Bool.not_eq_true] at hp ⊢
      simp [hp, ih]

/-- Inversion for `getEnumType`. -/
theorem getEnumType_inv {env : Env} {s s1 : Schema} {j : Nat} {nm : String}
    (h : getEnumType env s j = some (s1, nm)) :
    ∃ e, env.enums[j]? = some e ∧ nm = e.name ∧
      (((s.enums.find? fun g => g.name == e.name).isSome = true ∧ s1 = s) ∨
       ((s.enums.find? fun g => g.name == e.name) = none ∧
        s1 = { s with enums := s.enums ++ [ProtoEnumToGraphQL e] })) := by
  unfold getEnumType at h
  split at h
  · exact Option.noConfusion h
  · rename_i e hj
    refine ⟨e, hj, ?_⟩
    split at h
    · rename_i g hfind
      obtain ⟨h1, h2⟩ := Prod.mk.injEq .. ▸ Option.some.injEq .. ▸ h
      exact ⟨h2.symm, Or.inl ⟨by simp [hfind], h1.symm⟩⟩
    · rename_i hfind
      obtain ⟨h1, h2⟩ := Prod.mk.injEq .. ▸ Option.some.injEq .. ▸ h
      exact ⟨h2.symm, Or.inr ⟨hfind, h1.symm⟩⟩

/-- `getEnumType` touches only `s.Enums`, appends at most one enum whose
name was checked fresh the instant before the append, and fails only on a
dangling reference. -/
theorem getEnumType_pres {env : Env} {s s1 : Schema} {j : Nat} {nm : String}
    (h : getEnumType env s j = some (s1, nm)) :
    s1.rootQuery = s.rootQuery ∧ s1.rootMutation = s.rootMutation ∧
    s1.serviceName = s.serviceName ∧ s1.types = s.types ∧
    s1.inputs = s.inputs ∧
    ((enumNames s).Nodup → (enumNames s1).Nodup) := by
  obtain ⟨e, hj, hnm, hcase⟩ := getEnumType_inv h
  rcases hcase with ⟨hfind, rfl⟩ | ⟨hfind, rfl⟩
  · exact ⟨rfl, rfl, rfl, rfl, rfl, id⟩
  · refine ⟨rfl, rfl, rfl, rfl, rfl, fun hnd => ?_⟩
    have hfresh : e.name ∉ enumNames s := by
      intro hmem
      obtain ⟨g, hg, hgname⟩ := List.mem_map.mp hmem
      have := List.find?_eq_none.mp hfind g hg
      simp [hgname] at this
    have hext : enumNames { s with enums := s.enums ++ [ProtoEnumToGraphQL e] } =
        enumNames s ++ [e.name] := by
      simp [enumNames, ProtoEnumToGraphQL]
    rw [hext]
    simp [List.nodup_append, hnd, hfresh]

/-- Inversion for the empty field walk. -/
theorem buildFieldsAux_nil_inv {env : Env}
    {rec : Schema → Nat → Option (Schema × GType)} {s s1 : Schema}
    {out : List GField} (h : buildFieldsAux rec env s [] = some (s1, out)) :
    s1 = s ∧ out = [] := by
  unfold buildFieldsAux at h
  obtain ⟨h1, h2⟩ := Prod.mk.injEq .. ▸ Option.some.injEq .. ▸ h
  exact ⟨h1.symm, h2.symm⟩

/-- Inversion for one step of the field walk. -/
theorem buildFieldsAux_cons_inv {env : Env}
    {rec : Schema → Nat → Option (Schema × GType)} {s s1 : Schema}
    {f : FieldDef} {fs : List FieldDef} {out : List GField}
    (h : buildFieldsAux rec env s (f :: fs) = some (s1, out)) :
    ∃ sa ty rest, getFieldTypeAux rec env s f = some (sa, ty) ∧
      buildFieldsAux rec env sa fs = some (s1, rest) ∧
      out = { name := f.jsonName, type := ty, comment := cleanComment f.comment,
              isRequired := f.hasPresence } :: rest := by
  unfold buildFieldsAux at h
  split at h
  · exact Option.noConfusion h
  · rename_i sa ty hft
    split at h
    · exact Option.noConfusion h
    · rename_i s2 rest hbw
      obtain ⟨h1, h2⟩ := Prod.mk.injEq .. ▸ Option.some.injEq .. ▸ h
      exact ⟨sa, ty, rest, hft, h1 ▸ hbw, h2.symm⟩

/-- Inversion for `getFieldType`. -/
theorem getFieldTypeAux_inv {env : Env}
    {rec : Schema → Nat → Option (Schema × GType)} {s sa : Schema}
    {f : FieldDef} {ty : String}
    (h : getFieldTypeAux rec env s f = some (sa, ty)) :
    (∃ j t, f.msgRef = some j ∧ rec s j = some (sa, t) ∧ ty = t.name) ∨
    (f.msgRef = none ∧ ∃ j, f.enumRef = some j ∧
      getEnumType env s j = some (sa, ty)) ∨
    (f.msgRef = none ∧ f.enumRef = none ∧ sa = s ∧
      ty = ProtoKindToGraphQL f.kind f.isList f.hasPresence) := by
  unfold getFieldTypeAux at h
  split at h
  · rename_i j hmr
    split at h
    · exact Option.noConfusion h
    · rename_i s2 t hout
      obtain ⟨h1, h2⟩ := Prod.mk.injEq .. ▸ Option.some.injEq .. ▸ h
      exact Or.inl ⟨j, t, hmr, h1 ▸ hout, h2.symm⟩
  · rename_i hmr
    split at h
    · rename_i j her
      exact Or.inr (Or.inl ⟨hmr, j, her, h⟩)
    · rename_i her
      obtain ⟨h1, h2⟩ := Prod.mk.injEq .. ▸ Option.some.injEq .. ▸ h
      exact Or.inr (Or.inr ⟨hmr, her, h1.symm, h2.symm⟩)

/-- Inversion for `getOutputType` with positive fuel. -/
theorem getOutputType_succ_inv {env : Env} {n i : Nat} {s sq : Schema}
    {t : GType} (h : getOutputType env (n + 1) s i = some (sq, t)) :
    ∃ m, env.msgs[i]? = some m ∧
      ((s.types.find? (fun t0 => t0.name == m.name) = some t ∧ sq = s) ∨
       ((s.types.find? fun t0 => t0.name == m.name) = none ∧
        ∃ s1 flds,
          buildFieldsAux (getOutputType env n) env s m.fields = some (s1, flds) ∧
          t = (ShouldFederate { name := m.name, fields := flds,
                                comment := cleanComment m.comment }).1 ∧
          sq = { s1 with types := s1.types ++ [t] })) := by
  simp only [getOutputType] at h
  split at h
  · exact Option.noConfusion h
  · rename_i m hm
    refine ⟨m, hm, ?_⟩
    split at h
    · rename_i t0 hfind
      obtain ⟨h1, h2⟩ := Prod.mk.injEq .. ▸ Option.some.injEq .. ▸ h
      exact Or.inl ⟨h2 ▸ hfind, h1.symm⟩
    · rename_i hfind
      split at h
      · exact Option.noConfusion h
      · rename_i s1 flds hbw
        obtain ⟨h1, h2⟩ := Prod.mk.injEq .. ▸ Option.some.injEq .. ▸ h
        subst h2
        exact Or.inr ⟨hfind, s1, flds, hbw, rfl, h1.symm⟩

/-- Inversion for `getInputType`. -/
theorem getInputType_inv {env : Env} {n i : Nat} {s sq : Schema}
    {inp : GInput} (h : getInputType env n s i = some (sq, inp)) :
    ∃ m, env.msgs[i]? = some m ∧
      ((s.inputs.find? (fun x => x.name == getInputTypeName m) = some inp ∧
        sq = s) ∨
       ((s.inputs.find? fun x => x.name == getInputTypeName m) = none ∧
        ∃ s1 flds,
          buildFieldsAux (getOutputType env n) env s m.fields = some (s1, flds) ∧
          inp = { name := getInputTypeName m, fields := flds,
                  comment := cleanComment m.comment } ∧
          sq = { s1 with inputs := s1.inputs ++ [inp] })) := by
  simp only [getInputType] at h
  split at h
  · exact Option.noConfusion h
  · rename_i m hm
    refine ⟨m, hm, ?_⟩
    split at h
    · rename_i x hfind
      obtain ⟨h1, h2⟩ := Prod.mk.injEq .. ▸ Option.some.injEq .. ▸ h
      exact Or.inl ⟨h2 ▸ hfind, h1.symm⟩
    · rename_i hfind
      split at h
      · exact Option.noConfusion h
      · rename_i s1 flds hbw
        obtain ⟨h1, h2⟩ := Prod.mk.injEq .. ▸ Option.some.injEq .. ▸ h
        subst h2
        exact Or.inr ⟨hfind, s1, flds, hbw, rfl, h1.symm⟩

/-- Generic preservation through the field walk: any reflexive, transitive
relation that holds across `getEnumType` and across each nested
output-resolution holds across `buildFieldsAux`. -/
theorem buildFields_pres {env : Env}
    {rec : Schema → Nat → Option (Schema × GType)}
    {P : Schema → Schema → Prop}
    (hrefl : ∀ s, P s s)
    (htrans : ∀ a b c, P a b → P b c → P a c)
    (henumP : ∀ s j s1 nm, getEnumType env s j = some (s1, nm) → P s s1) :
    ∀ fields : List FieldDef,
      (∀ f ∈ fields, ∀ j, f.msgRef = some j →
        ∀ s s1 t, rec s j = some (s1, t) → P s s1) →
      ∀ s s1 out, buildFieldsAux rec env s fields = some (s1, out) → P s s1 := by
  intro fields
  induction fields with
  | nil =>
    intro _ s s1 out h
    obtain ⟨rfl, -⟩ := buildFieldsAux_nil_inv h
    exact hrefl _
  | cons f fs ih =>
    intro hrec s s1 out h
    obtain ⟨sa, ty, rest, hft, hbw, -⟩ := buildFieldsAux_cons_inv h
    have hstep : P s sa := by
      rcases getFieldTypeAux_inv hft with ⟨j, t, hmr, hout, -⟩ |
        ⟨-, j, her, he⟩ | ⟨-, -, rfl, -⟩
      · exact hrec f (by simp) j hmr s sa t hout
      · exact henumP s j sa ty he
      · exact hrefl _
    exact htrans _ _ _ hstep
      (ih (fun g hg => hrec g (by simp [hg])) sa s1 rest hbw)

/-- `MiscPres` is reflexive. -/
theorem miscPres_refl (s : Schema) : MiscPres s s := ⟨rfl, rfl, rfl, rfl⟩

/-- `MiscPres` is transitive. -/
theorem miscPres_trans (a b c : Schema) (hab : MiscPres a b)
    (hbc : MiscPres b c) : MiscPres a c :=
  ⟨hbc.1.trans hab.1, hbc.2.1.trans hab.2.1, hbc.2.2.1.trans hab.2.2.1,
    hbc.2.2.2.trans hab.2.2.2⟩

/-- `getEnumType` satisfies `MiscPres`. -/
theorem getEnumType_miscPres {env : Env} {s s1 : Schema} {j : Nat}
    {nm : String} (h : getEnumType env s j = some (s1, nm)) : MiscPres s s1 :=
  let hp := getEnumType_pres h
  ⟨hp.1, hp.2.1, hp.2.2.1, hp.2.2.2.2.1⟩

/-- `getOutputType` never writes the roots, the service name, or the inputs
registry. -/
theorem got_pres {env : Env} :
    ∀ (n i : Nat) (s sq : Schema) (t : GType),
      getOutputType env n s i = some (sq, t) → MiscPres s sq := by
  intro n
  induction n with
  | zero => intro i s sq t h; exact absurd h (by simp [getOutputType])
  | succ n ih =>
    intro i s sq t h
    obtain ⟨m, hm, hcase⟩ := getOutputType_succ_inv h
    rcases hcase with ⟨-, rfl⟩ | ⟨-, s1, flds, hbw, -, rfl⟩
    · exact miscPres_refl _
    · have hP := buildFields_pres miscPres_refl miscPres_trans
        (fun s j s1 nm he => getEnumType_miscPres he) m.fields
        (fun f hf j hj s s1 t hout => ih j s s1 t hout) s s1 flds hbw
      exact ⟨hP.1, hP.2.1, hP.2.2.1, hP.2.2.2⟩

/-- `getInputType` never writes the roots or the service name. -/
theorem gin_pres {env : Env} {n i : Nat} {s sq : Schema} {inp : GInput}
    (h : getInputType env n s i = some (sq, inp)) :
    sq.rootQuery = s.rootQuery ∧ sq.rootMutation = s.rootMutation ∧
      sq.serviceName = s.serviceName := by
  obtain ⟨m, hm, hcase⟩ := getInputType_inv h
  rcases hcase with ⟨-, rfl⟩ | ⟨-, s1, flds, hbw, -, rfl⟩
  · exact ⟨rfl, rfl, rfl⟩
  · have hP := buildFields_pres miscPres_refl miscPres_trans
      (fun s j s1 nm he => getEnumType_miscPres he) m.fields
      (fun f hf j hj s s1 t hout => got_pres n j s s1 t hout) s s1 flds hbw
    exact ⟨hP.1, hP.2.1, hP.2.2.1⟩

/-- `GotInv` is reflexive. -/
theorem gotInv_refl (env : Env) (rank : Nat → Nat) (r : Nat) (s : Schema) :
    GotInv env rank r s s :=
  ⟨miscPres_refl s, ⟨[], by simp, by simp⟩, id, id⟩

/-- `GotInv` is transitive (at a fixed bound). -/
theorem gotInv_trans (env : Env) (rank : Nat → Nat) (r : Nat)
    (a b c : Schema) (h1 : GotInv env rank r a b) (h2 : GotInv env rank r b c) :
    GotInv env rank r a c := by
  obtain ⟨m1, ⟨d1, he1, hb1⟩, t1, e1⟩ := h1
  obtain ⟨m2, ⟨d2, he2, hb2⟩, t2, e2⟩ := h2
  refine ⟨miscPres_trans _ _ _ m1 m2, ⟨d1 ++ d2, ?_, ?_⟩, fun h => t2 (t1 h),
    fun h => e2 (e1 h)⟩
  · rw [he2, he1, List.append_assoc]
  · intro nm hnm
    rw [List.map_append] at hnm
    rcases List.mem_append.mp hnm with h | h
    exacts [hb1 nm h, hb2 nm h]

/-- `GotInv` is monotone in the rank bound. -/
theorem gotInv_mono (env : Env) (rank : Nat → Nat) {r r' : Nat} (hr : r ≤ r')
    (a b : Schema) (h : GotInv env rank r a b) : GotInv env rank r' a b := by
  obtain ⟨m, ⟨d, he, hb⟩, np⟩ := h
  refine ⟨m, ⟨d, he, ?_⟩, np⟩
  intro nm hnm
  obtain ⟨j, mm, h1, h2, h3⟩ := hb nm hnm
  exact ⟨j, mm, h1, h2, by omega⟩

/-- `getEnumType` satisfies `GotInv` (it never touches the types list). -/
theorem getEnumType_gotInv {env : Env} (rank : Nat → Nat) (r : Nat)
    {s s1 : Schema} {j : Nat} {nm : String}
    (h : getEnumType env s j = some (s1, nm)) : GotInv env rank r s s1 := by
  have hp := getEnumType_pres h
  refine ⟨getEnumType_miscPres h, ⟨[], by rw [hp.2.2.2.1]; simp, by simp⟩,
    ?_, hp.2.2.2.2.2⟩
  intro hnd
  unfold typeNames
  rw [hp.2.2.2.1]
  exact hnd

/-- The main invariant of `getOutputType` on a name-distinct, rank-acyclic
environment: the traversal only appends type names of messages of rank at
most `rank i`, and it preserves uniqueness of type names and of enum
names. -/
theorem got_inv {env : Env} {rank : Nat → Nat}
    (hinj : distinctNames env = true) (hrank : rankOK env rank = true) :
    ∀ (n i : Nat) (s sq : Schema) (t : GType),
      getOutputType env n s i = some (sq, t) →
      GotInv env rank (rank i + 1) s sq := by
  intro n
  induction n with
  | zero => intro i s sq t h; exact absurd h (by simp [getOutputType])
  | succ n ih =>
    intro i s sq t h
    obtain ⟨m, hm, hcase⟩ := getOutputType_succ_inv h
    rcases hcase with ⟨-, rfl⟩ | ⟨hfind, s1, flds, hbw, ht, rfl⟩
    · exact gotInv_refl ..
    · have hwalk : GotInv env rank (rank i) s s1 :=
        buildFields_pres (gotInv_refl env rank (rank i))
          (gotInv_trans env rank (rank i))
          (fun sa j sb nm he => getEnumType_gotInv rank (rank i) he)
          m.fields
          (fun f hf j hj sa sb tb hout =>
            gotInv_mono env rank
              (by have := rankOK_field hrank hm hf hj; omega)
              sa sb (ih j sa sb tb hout))
          s s1 flds hbw
      obtain ⟨hmisc, ⟨dw, hext, hbound⟩, hndt, hnde⟩ := hwalk
      have htname : t.name = m.name := by
        rw [ht]; exact (federateLoop_name _ _).1
      have hnotins : m.name ∉ typeNames s := by
        intro hmem
        obtain ⟨t0, ht0mem, ht0name⟩ := List.mem_map.mp hmem
        have := List.find?_eq_none.mp hfind t0 ht0mem
        simp [ht0name] at this
      have hnotind : m.name ∉ dw.map GType.name := by
        intro hmem
        obtain ⟨j, mj, hmj, hmjname, hjr⟩ := hbound m.name hmem
        have hji := distinctNames_eq hinj hmj hm hmjname
        rw [hji] at hjr
        omega
      refine ⟨hmisc, ⟨dw ++ [t], ?_, ?_⟩, ?_, ?_⟩
      · show s1.types ++ [t] = s.types ++ (dw ++ [t])
        rw [hext, List.append_assoc]
      · intro nm hnm
        rw [List.map_append] at hnm
        rcases List.mem_append.mp hnm with hn | hn
        · obtain ⟨j, mj, h1, h2, h3⟩ := hbound nm hn
          exact ⟨j, mj, h1, h2, by omega⟩
        · have : nm = m.name := by
            simpa [htname] using hn
          exact ⟨i, m, hm, this.symm, Nat.lt_succ_self _⟩
      · intro hnd
        have h1 : typeNames { s1 with types := s1.types ++ [t] } =
            typeNames s1 ++ [m.name] := by
          simp [typeNames, htname]
        have h2 : typeNames s1 = typeNames s ++ dw.map GType.name := by
          simp [typeNames, hext]
        rw [h1, List.nodup_append]
        refine ⟨hndt hnd, List.nodup_singleton _, ?_⟩
        intro a ha hb
        obtain rfl : a = m.name := List.mem_singleton.mp hb
        rw [h2] at ha
        rcases List.mem_append.mp ha with hx | hx
        · exact hnotins hx
        · exact hnotind hx
      · intro hnd
        have : enumNames { s1 with types := s1.types ++ [t] } = enumNames s1 := rfl
        rw [this]
        exact hnde hnd

/-- `getInputType` preserves uniqueness of type, enum and input names on a
name-distinct, rank-acyclic environment. -/
theorem gin_nodup {env : Env} {rank : Nat → Nat}
    (hinj : distinctNames env = true) (hrank : rankOK env rank = true)
    {n i : Nat} {s sq : Schema} {inp : GInput}
    (h : getInputType env n s i = some (sq, inp)) :
    ((typeNames s).Nodup → (typeNames sq).Nodup) ∧
    ((enumNames s).Nodup → (enumNames sq).Nodup) ∧
    ((inputNames s).Nodup → (inputNames sq).Nodup) := by
  obtain ⟨m, hm, hcase⟩ := getInputType_inv h
  rcases hcase with ⟨-, rfl⟩ | ⟨hfind, s1, flds, hbw, hinp, rfl⟩
  · exact ⟨id, id, id⟩
  · have hwalk : MiscPres s s1 ∧ NodupPres s s1 :=
      @buildFields_pres env (getOutputType env n)
        (fun a b => MiscPres a b ∧ NodupPres a b)
        (fun s => ⟨miscPres_refl s, id, id⟩)
        (fun a b c h1 h2 => ⟨miscPres_trans _ _ _ h1.1 h2.1,
          fun hh => h2.2.1 (h1.2.1 hh), fun hh => h2.2.2 (h1.2.2 hh)⟩)
        (fun sa j sb nm he => ⟨getEnumType_miscPres he,
          (getEnumType_gotInv rank 0 he).2.2⟩)
        m.fields
        (fun f hf j hj sa sb tb hout => ⟨got_pres n j sa sb tb hout,
          (got_inv hinj hrank n j sa sb tb hout).2.2⟩)
        s s1 flds hbw
    have hmisc := hwalk.1
    have hndt := hwalk.2.1
    have hnde := hwalk.2.2
    refine ⟨hndt, hnde, ?_⟩
    intro hnd
    have hfresh : getInputTypeName m ∉ inputNames s := by
      intro hmem
      obtain ⟨x, hxmem, hxname⟩ := List.mem_map.mp hmem
      have := List.find?_eq_none.mp hfind x hxmem
      simp [hxname] at this
    have h1 : inputNames { s1 with inputs := s1.inputs ++ [inp] } =
        inputNames s ++ [getInputTypeName m] := by
      simp [inputNames, hmisc.2.2.2, hinp]
    rw [h1, List.nodup_append]
    refine ⟨hnd, List.nodup_singleton _, ?_⟩
    intro a ha hb
    obtain rfl : a = getInputTypeName m := List.mem_singleton.mp hb
    exact hfresh ha

/-! ### Generator-state lemmas (`walkMethod` and the schemas map) -/

/-- Inversion for `walkMethod`. -/
theorem walkMethod_inv {env : Env} {n : Nat} {st st' : GenState} {k : String}
    {m : MethodDef} (h : walkMethod env n st k m = some st') :
    ∃ s0 s3, lookupSchema (ensureSchema st k) k = some s0 ∧
      methodCore env n s0 m = some s3 ∧
      st' = setSchema (ensureSchema st k) k s3 := by
  simp only [walkMethod] at h
  split at h
  · exact Option.noConfusion h
  · rename_i s0 hl
    split at h
    · exact Option.noConfusion h
    · rename_i s3 hc
      exact ⟨s0, s3, hl, hc, (Option.some.injEq .. ▸ h).symm⟩

/-- Inversion for `methodCore`. -/
theorem methodCore_inv {env : Env} {n : Nat} {s s3 : Schema} {m : MethodDef}
    (h : methodCore env n s m = some s3) :
    ∃ s1 inp s2 out fname,
      getInputType env n s m.inputMsg = some (s1, inp) ∧
      getOutputType env n s1 m.outputMsg = some (s2, out) ∧
      getMethodName m.name = some fname ∧
      s3 = appendRoot s2 (isQueryName m.name)
        { name := fname, comment := cleanComment m.comment,
          inputs := [inp], type := out.name } := by
  unfold methodCore at h
  split at h
  · exact Option.noConfusion h
  · rename_i s1 inp hin
    split at h
    · exact Option.noConfusion h
    · rename_i s2 out hout
      split at h
      · exact Option.noConfusion h
      · rename_i fname hname
        exact ⟨s1, inp, s2, out, fname, hin, hout, hname,
          (Option.some.injEq .. ▸ h).symm⟩

/-- Updating key `k` makes `lookupSchema` at `k` return the new value,
provided the key is present. -/
theorem find?_update_self {k : String} {v : Schema} :
    ∀ l : List (String × Schema),
      (l.find? fun p => p.1 == k).isSome = true →
      ((l.map fun p => if p.1 == k then (k, v) else p).find?
        fun p => p.1 == k) = some (k, v) := by
  intro l
  induction l with
  | nil => simp
  | cons p ps ih =>
    intro hsome
    by_cases hp : (p.1 == k) = true
    · rw [List.map_cons, if_pos hp]
      exact @List.find?_cons_of_pos _ (fun q => q.1 == k) (k, v) _ (by simp)
    · rw [List.map_cons, if_neg hp,
        @List.find?_cons_of_neg _ (fun q => q.1 == k) p _ hp]
      apply ih
      rwa [@List.find?_cons_of_neg _ (fun q => q.1 == k) p ps hp] at hsome

/-- Updating key `k` leaves `lookupSchema` at other keys unchanged. -/
theorem find?_update_other {k k2 : String} {v : Schema} (hne : k2 ≠ k) :
    ∀ l : List (String × Schema),
      ((l.map fun p => if p.1 == k then (k, v) else p).find?
        fun p => p.1 == k2) = l.find? fun p => p.1 == k2 := by
  intro l
  induction l with
  | nil => simp
  | cons p ps ih =>
    by_cases hp : (p.1 == k) = true
    · have hpk : p.1 = k := by simpa using hp
      rw [List.map_cons, if_pos hp,
        @List.find?_cons_of_neg _ (fun q => q.1 == k2) (k, v) _
          (by simp only [beq_iff_eq]; exact fun hh => hne hh.symm),
        @List.find?_cons_of_neg _ (fun q => q.1 == k2) p ps
          (by simp only [beq_iff_eq, hpk]; exact fun hh => hne hh.symm)]
      exact ih
    · rw [List.map_cons, if_neg hp]
      by_cases hq : (p.1 == k2) = true
      · rw [@List.find?_cons_of_pos _ (fun q => q.1 == k2) p _ hq,
          @List.find?_cons_of_pos _ (fun q => q.1 == k2) p ps hq]
      · rw [@List.find?_cons_of_neg _ (fun q => q.1 == k2) p _ hq,
          @List.find?_cons_of_neg _ (fun q => q.1 == k2) p ps hq]
        exact ih

/-- `lookupSchema` after `setSchema` at the written key. -/
theorem lookupSchema_set_self {st : GenState} {k : String} {v : Schema}
    (h : (lookupSchema st k).isSome = true) :
    lookupSchema (setSchema st k v) k = some v := by
  unfold lookupSchema setSchema at *
  simp only at h ⊢
  rw [find?_update_self st.schemas (by
    cases hf : st.schemas.find? fun p => p.1 == k
    · rw [hf] at h; simp at h
    · simp)]
  rfl

/-- `lookupSchema` after `setSchema` at a different key. -/
theorem lookupSchema_set_other {st : GenState} {k k2 : String} {v : Schema}
    (hne : k2 ≠ k) :
    lookupSchema (setSchema st k v) k2 = lookupSchema st k2 := by
  unfold lookupSchema setSchema
  simp only
  rw [find?_update_other hne st.schemas]

/-- A successful `lookupSchema` exhibits a stored entry. -/
theorem lookupSchema_mem {st : GenState} {k : String} {s : Schema}
    (h : lookupSchema st k = some s) : (k, s) ∈ st.schemas := by
  unfold lookupSchema at h
  cases hf : st.schemas.find? (fun p => p.1 == k) with
  | none => rw [hf] at h; exact Option.noConfusion h
  | some q =>
    rw [hf] at h
    have hq := List.find?_some hf
    have hmem := List.mem_of_find?_eq_some hf
    have hk : q.1 = k := by simpa using hq
    have hs : q.2 = s := by simpa using h
    have : q = (k, s) := by
      cases q
      simp_all
    rwa [this] at hmem

/-- Entries of `ensureSchema st k` are entries of `st` or the fresh
`initSchemaFor k` entry. -/
theorem mem_ensure {st : GenState} {k : String} {p : String × Schema}
    (hp : p ∈ (ensureSchema st k).schemas) :
    p ∈ st.schemas ∨ p = (k, initSchemaFor k) := by
  unfold ensureSchema at hp
  by_cases hc : st.services.contains k = true
  · rw [if_pos hc] at hp
    rw [if_pos hc] at hp
    exact Or.inl hp
  · rw [if_neg hc] at hp
    rw [if_pos (by simp)] at hp
    simp only at hp
    rcases List.mem_append.mp hp with h | h
    · exact Or.inl h
    · exact Or.inr (List.mem_singleton.mp h)

/-- Entries of `setSchema st k v` are the updated entry or entries of
`st`. -/
theorem mem_set {st : GenState} {k : String} {v : Schema}
    {p : String × Schema} (hp : p ∈ (setSchema st k v).schemas) :
    p = (k, v) ∨ p ∈ st.schemas := by
  unfold setSchema at hp
  simp only [List.mem_map] at hp
  obtain ⟨q, hq, hqp⟩ := hp
  by_cases hk : (q.1 == k) = true
  · rw [if_pos hk] at hqp
    exact Or.inl hqp.symm
  · rw [if_neg hk] at hqp
    exact Or.inr (hqp ▸ hq)

/-- Characterization of the entry `ensureSchema` leaves under its key. -/
theorem ensure_lookup_char {st : GenState} {k : String} {s0 : Schema}
    (h : lookupSchema (ensureSchema st k) k = some s0) :
    s0 = (lookupSchema st k).getD (initSchemaFor k) := by
  unfold ensureSchema at h
  by_cases hc : st.services.contains k = true
  · rw [if_pos hc] at h
    rw [if_pos hc] at h
    rw [h]
    rfl
  · rw [if_neg hc] at h
    rw [if_pos (by simp)] at h
    unfold lookupSchema at h ⊢
    simp only [List.find?_append] at h
    cases hf : st.schemas.find? (fun p => p.1 == k) with
    | some q =>
      rw [hf] at h
      simp only [Option.or_some] at h
      simpa using h.symm
    | none =>
      rw [hf] at h
      simp only [Option.none_or] at h
      have : ([((k : String), initSchemaFor k)].find? fun p => p.1 == k) =
          some (k, initSchemaFor k) := by simp
      rw [this] at h
      simpa using h.symm

/-- `ensureSchema` leaves other keys unchanged. -/
theorem ensure_lookup_other {st : GenState} {k k2 : String} (hne : k2 ≠ k) :
    lookupSchema (ensureSchema st k) k2 = lookupSchema st k2 := by
  unfold ensureSchema
  by_cases hc : st.services.contains k = true
  · rw [if_pos hc]
    rw [if_pos hc]
  · rw [if_neg hc]
    rw [if_pos (by simp)]
    unfold lookupSchema
    simp only [List.find?_append]
    have : ([((k : String), initSchemaFor k)].find? fun p => p.1 == k2) =
        none := by
      simp only [List.find?_singleton]
      rw [if_neg]
      simp only [beq_iff_eq]
      exact fun hh => hne hh.symm
    rw [this, Option.or_none]

/-- What one `walkMethod` call does at its own key: both roots keep their
names, and the method's field lands on exactly one of the two roots,
according to `isQueryName`. -/
theorem walkMethod_roots {env : Env} {n : Nat} {st st' : GenState}
    {k : String} {m : MethodDef} (h : walkMethod env n st k m = some st') :
    ∃ s0 s3 f, lookupSchema (ensureSchema st k) k = some s0 ∧
      lookupSchema st' k = some s3 ∧
      s3.rootQuery.name = s0.rootQuery.name ∧
      s3.rootMutation.name = s0.rootMutation.name ∧
      ((isQueryName m.name = true ∧
        s3.rootQuery.fields = s0.rootQuery.fields ++ [f] ∧
        s3.rootMutation = s0.rootMutation) ∨
       (isQueryName m.name = false ∧
        s3.rootMutation.fields = s0.rootMutation.fields ++ [f] ∧
        s3.rootQuery = s0.rootQuery)) := by
  obtain ⟨s0, s3, hl, hc, rfl⟩ := walkMethod_inv h
  obtain ⟨s1, inp, s2, out, fname, hin, hout, hname, hs3⟩ := methodCore_inv hc
  have hr1 := gin_pres hin
  have hr2 := got_pres n m.outputMsg s1 s2 out hout
  have hq2 : s2.rootQuery = s0.rootQuery := hr2.1.trans hr1.1
  have hm2 : s2.rootMutation = s0.rootMutation := hr2.2.1.trans hr1.2.1
  have hset : lookupSchema (setSchema (ensureSchema st k) k s3) k = some s3 :=
    lookupSchema_set_self (by rw [hl]; rfl)
  refine ⟨s0, s3, { name := fname, comment := cleanComment m.comment,
                    inputs := [inp], type := out.name }, hl, hset, ?_⟩
  cases hqn : isQueryName m.name with
  | true =>
    rw [hs3]
    unfold appendRoot
    rw [hqn, if_pos rfl]
    refine ⟨by simp [hq2], by simp [hm2], Or.inl ⟨rfl, by simp [hq2], by simp [hm2]⟩⟩
  | false =>
    rw [hs3]
    unfold appendRoot
    rw [hqn, if_neg (by simp)]
    refine ⟨by simp [hq2], by simp [hm2], Or.inr ⟨rfl, by simp [hm2], by simp [hq2]⟩⟩

/-! ### C5 — query vs. mutation classification -/

/-- C5: a method walked by the builder has its root field appended to
`RootQuery` exactly when its name, lowercased, starts with `get`, `list` or
`search`, and to `RootMutation` otherwise; in particular `GetWidget`
classifies as a query while `CreateWidget` and `ArchiveWidget` (no
recognized prefix) classify as mutations. -/
theorem c5_query_classification :
    (∀ (env : Env) (n : Nat) (st : GenState) (k : String) (m : MethodDef)
        (st' : GenState) (s0 s3 : Schema),
        walkMethod env n st k m = some st' →
        lookupSchema (ensureSchema st k) k = some s0 →
        lookupSchema st' k = some s3 →
        ((isQueryName m.name = true →
          ∃ f, s3.rootQuery.fields = s0.rootQuery.fields ++ [f] ∧
            s3.rootMutation = s0.rootMutation) ∧
         (isQueryName m.name = false →
          ∃ f, s3.rootMutation.fields = s0.rootMutation.fields ++ [f] ∧
            s3.rootQuery = s0.rootQuery))) ∧
    isQueryName "GetWidget" = true ∧ isQueryName "CreateWidget" = false ∧
      isQueryName "ArchiveWidget" = false := by
  refine ⟨?_, by decide, by decide, by decide⟩
  intro env n st k m st' s0 s3 h hl0 hl3
  obtain ⟨t0, t3, f, hl0', hl3', -, -, hcase⟩ := walkMethod_roots h
  obtain rfl : t0 = s0 := by
    have := hl0'.symm.trans hl0
    simpa using this
  obtain rfl : t3 = s3 := by
    have := hl3'.symm.trans hl3
    simpa using this
  constructor
  · intro hq
    rcases hcase with ⟨-, hf, hmut⟩ | ⟨hq', -, -⟩
    · exact ⟨f, hf, hmut⟩
    · exact Bool.noConfusion (hq.symm.trans hq')
  · intro hq
    rcases hcase with ⟨hq', -, -⟩ | ⟨-, hf, hquery⟩
    · exact Bool.noConfusion (hq'.symm.trans hq)
    · exact ⟨f, hf, hquery⟩

/-- C5, witnessed on a concrete run of `GetWidget`. -/
theorem c5_query_classification_witness :
    walkMethod wEnv 9 {} "widgets.v1.WidgetService" wMethod =
      some wStateAfter ∧
    lookupSchema (ensureSchema {} "widgets.v1.WidgetService")
      "widgets.v1.WidgetService" =
      some (initSchemaFor "widgets.v1.WidgetService") ∧
    lookupSchema wStateAfter "widgets.v1.WidgetService" = some wSchemaAfter ∧
    ((isQueryName wMethod.name = true →
      ∃ f, wSchemaAfter.rootQuery.fields =
          (initSchemaFor "widgets.v1.WidgetService").rootQuery.fields ++ [f] ∧
        wSchemaAfter.rootMutation =
          (initSchemaFor "widgets.v1.WidgetService").rootMutation) ∧
     (isQueryName wMethod.name = false →
      ∃ f, wSchemaAfter.rootMutation.fields =
          (initSchemaFor "widgets.v1.WidgetService").rootMutation.fields ++ [f] ∧
        wSchemaAfter.rootQuery =
          (initSchemaFor "widgets.v1.WidgetService").rootQuery)) :=
  ⟨rfl, rfl, rfl,
    c5_query_classification.1 wEnv 9 {} "widgets.v1.WidgetService" wMethod
      wStateAfter (initSchemaFor "widgets.v1.WidgetService") wSchemaAfter
      rfl rfl rfl⟩

/-! ### C9 — root-object invariant -/

/-- C9: every schema the builder creates has roots named `Query` and
`Mutation` (they exist by construction — they are not nullable in the
model), the root names survive every `walkMethod`, and each walked method
appends its field to exactly one of the two roots, never both and never
neither. -/
theorem c9_roots_invariant :
    RootsOK newSchema ∧
    ∀ (env : Env) (n : Nat) (st : GenState) (k : String) (m : MethodDef)
      (st' : GenState), StateRootsOK st → walkMethod env n st k m = some st' →
      StateRootsOK st' ∧
      ∃ s0 s3 f, lookupSchema (ensureSchema st k) k = some s0 ∧
        lookupSchema st' k = some s3 ∧
        ((s3.rootQuery.fields = s0.rootQuery.fields ++ [f] ∧
          s3.rootMutation = s0.rootMutation) ∨
         (s3.rootMutation.fields = s0.rootMutation.fields ++ [f] ∧
          s3.rootQuery = s0.rootQuery)) := by
  refine ⟨⟨rfl, rfl⟩, ?_⟩
  intro env n st k m st' hroots h
  obtain ⟨s0, s3, f, hl0, hl3, hqname, hmname, hcase⟩ := walkMethod_roots h
  have hs0roots : RootsOK s0 := by
    have hmem := lookupSchema_mem hl0
    rcases mem_ensure hmem with hin | heq
    · exact hroots _ hin
    · obtain ⟨-, h2⟩ := Prod.mk.injEq .. ▸ heq
      rw [h2]
      exact ⟨rfl, rfl⟩
  have hs3roots : RootsOK s3 := ⟨hqname.trans hs0roots.1, hmname.trans hs0roots.2⟩
  constructor
  · obtain ⟨s0', s3', hl0', hc', hst'⟩ := walkMethod_inv h
    have hself : lookupSchema (setSchema (ensureSchema st k) k s3') k =
        some s3' := lookupSchema_set_self (by rw [hl0']; rfl)
    have hs33 : s3 = s3' := by
      rw [hst'] at hl3
      have := hl3.symm.trans hself
      simpa using this
    subst hst'
    intro p hp
    rcases mem_set hp with rfl | hp2
    · exact hs33 ▸ hs3roots
    · rcases mem_ensure hp2 with hp3 | heq
      · exact hroots _ hp3
      · obtain ⟨-, h2⟩ := Prod.mk.injEq .. ▸ heq
        rw [h2]
        exact ⟨rfl, rfl⟩
  · refine ⟨s0, s3, f, hl0, hl3, ?_⟩
    rcases hcase with ⟨-, hf, hm2⟩ | ⟨-, hf, hm2⟩
    · exact Or.inl ⟨hf, hm2⟩
    · exact Or.inr ⟨hf, hm2⟩

/-- C9, witnessed on a concrete run. -/
theorem c9_roots_invariant_witness :
    StateRootsOK ({} : GenState) ∧
    walkMethod wEnv 9 {} "widgets.v1.WidgetService" wMethod =
      some wStateAfter ∧
    (StateRootsOK wStateAfter ∧
      ∃ s0 s3 f, lookupSchema (ensureSchema {} "widgets.v1.WidgetService")
          "widgets.v1.WidgetService" = some s0 ∧
        lookupSchema wStateAfter "widgets.v1.WidgetService" = some s3 ∧
        ((s3.rootQuery.fields = s0.rootQuery.fields ++ [f] ∧
          s3.rootMutation = s0.rootMutation) ∨
         (s3.rootMutation.fields = s0.rootMutation.fields ++ [f] ∧
          s3.rootQuery = s0.rootQuery))) :=
  ⟨by decide, rfl,
    c9_roots_invariant.2 wEnv 9 {} "widgets.v1.WidgetService" wMethod
      wStateAfter (by decide) rfl⟩

/-! ### C6 — name uniqueness and first-registration-wins -/

/-- One `walkMethod` call touches only its own service key, and its effect
there is `methodStep` of the previous entry. -/
theorem walkMethod_step {env : Env} {n : Nat} {st st' : GenState}
    {k : String} {m : MethodDef} (h : walkMethod env n st k m = some st') :
    (∀ k2, k2 ≠ k → lookupSchema st' k2 = lookupSchema st k2) ∧
    ∃ s3, methodStep env n k (lookupSchema st k) m = some s3 ∧
      lookupSchema st' k = some s3 := by
  obtain ⟨s0, s3, hl0, hc, rfl⟩ := walkMethod_inv h
  constructor
  · intro k2 hk2
    rw [lookupSchema_set_other hk2, ensure_lookup_other hk2]
  · refine ⟨s3, ?_, lookupSchema_set_self (by rw [hl0]; rfl)⟩
    unfold methodStep
    rw [← ensure_lookup_char hl0]
    exact hc

/-- `walkMethods` over one service's methods, at the state level: other
keys untouched, own key transformed by the `methodsStep` fold. -/
theorem walkMethods_step {env : Env} {n : Nat} :
    ∀ (ms : List MethodDef) (st st' : GenState) (k : String),
      walkMethods env n st k ms = some st' →
      (∀ k2, k2 ≠ k → lookupSchema st' k2 = lookupSchema st k2) ∧
      methodsStep env n k (lookupSchema st k) ms =
        some (lookupSchema st' k) := by
  intro ms
  induction ms with
  | nil =>
    intro st st' k h
    obtain rfl : st = st' := by simpa [walkMethods] using h
    exact ⟨fun _ _ => rfl, rfl⟩
  | cons m ms ih =>
    intro st st' k h
    simp only [walkMethods] at h
    cases hwm : walkMethod env n st k m with
    | none => rw [hwm] at h; exact Option.noConfusion h
    | some st1 =>
      rw [hwm] at h
      obtain ⟨hother1, s3, hstep1, hl1⟩ := walkMethod_step hwm
      obtain ⟨hother2, hstep2⟩ := ih st1 st' k h
      constructor
      · intro k2 hk2
        rw [hother2 k2 hk2, hother1 k2 hk2]
      · simp only [methodsStep, hstep1]
        rw [hl1] at hstep2
        exact hstep2

/-- Walking a list of services leaves the schemas of absent service names
untouched. -/
theorem walkAll_other {env : Env} {n : Nat} :
    ∀ (svcs : List ServiceDef) (st st' : GenState),
      walkAll env n st svcs = some st' →
      ∀ k, k ∉ svcs.map (·.fullName) →
        lookupSchema st' k = lookupSchema st k := by
  intro svcs
  induction svcs with
  | nil =>
    intro st st' h k _
    obtain rfl : st = st' := by simpa [walkAll] using h
    rfl
  | cons s rest ih =>
    intro st st' h k hk
    simp only [walkAll] at h
    cases hwm : walkMethods env n st s.fullName s.methods with
    | none => rw [hwm] at h; exact Option.noConfusion h
    | some st1 =>
      rw [hwm] at h
      have hk1 : k ∉ rest.map (·.fullName) := by
        intro hc; exact hk (by simp [hc])
      have hne : k ≠ s.fullName := by
        intro hc; exact hk (by simp [hc])
      rw [ih st1 st' h k hk1, (walkMethods_step s.methods st st1 s.fullName hwm).1 k hne]

/-- On a service list with pairwise-distinct names, the schema stored under
a member service's name after the walk is the `methodsStep` fold of that
service's own methods, from scratch — independent of the other services and
of their order. -/
theorem walkAll_mem {env : Env} {n : Nat} :
    ∀ (svcs : List ServiceDef) (st st' : GenState) (svc : ServiceDef),
      (svcs.map (·.fullName)).Nodup → svc ∈ svcs →
      lookupSchema st svc.fullName = none →
      walkAll env n st svcs = some st' →
      methodsStep env n svc.fullName none svc.methods =
        some (lookupSchema st' svc.fullName) := by
  intro svcs
  induction svcs with
  | nil =>
    intro st st' svc _ hmem
    exact absurd hmem (List.not_mem_nil svc)
  | cons s rest ih =>
    intro st st' svc hnd hmem hlk h
    simp only [walkAll] at h
    cases hwm : walkMethods env n st s.fullName s.methods with
    | none => rw [hwm] at h; exact Option.noConfusion h
    | some st1 =>
      rw [hwm] at h
      have hnd' : (∀ x ∈ rest, ¬ x.fullName = s.fullName) ∧
          (rest.map (·.fullName)).Nodup := by simpa using hnd
      rcases List.mem_cons.mp hmem with rfl | hmem2
      · have hnotin : svc.fullName ∉ rest.map (·.fullName) := by
          intro hc
          obtain ⟨x, hx, hxf⟩ := List.mem_map.mp hc
          exact hnd'.1 x hx hxf
        have hlast := walkAll_other rest st1 st' h svc.fullName hnotin
        obtain ⟨-, hstep⟩ := walkMethods_step svc.methods st st1 svc.fullName hwm
        rw [hlk] at hstep
        rw [hlast]
        exact hstep
      · have hne : svc.fullName ≠ s.fullName := hnd'.1 svc hmem2
        have hl1 : lookupSchema st1 svc.fullName = none := by
          rw [(walkMethods_step s.methods st st1 s.fullName hwm).1
            svc.fullName hne, hlk]
        exact ih st1 st' svc hnd'.2 hmem2 hl1 h

/-- C8: the pipeline is a pure function of the descriptor input — two runs
produce identical per-service artifacts — and, with distinct service names,
the artifact of each service is independent of the order in which the
services are walked and rendered (the schemas map is keyed by service name
and each method touches only its own service's entry; the template is
re-read and re-parsed per service, so there is no shared mutable template
state). -/
theorem c8_determinism (env : Env) (n : Nat)
    (render : ServiceDef → Option Schema → String)
    (l1 l2 : List ServiceDef) (st1 st2 : GenState)
    (hperm : l1.Perm l2) (hnd : (l1.map (·.fullName)).Nodup)
    (h1 : walkAll env n {} l1 = some st1)
    (h2 : walkAll env n {} l2 = some st2) :
    ∀ svc ∈ l1,
      lookupSchema st1 svc.fullName = lookupSchema st2 svc.fullName ∧
      render svc (lookupSchema st1 svc.fullName) =
        render svc (lookupSchema st2 svc.fullName) ∧
      runAll env n render l1 = some (outputsFor render st1 l1) ∧
      runAll env n render l2 = some (outputsFor render st2 l2) := by
  intro svc hmem
  have hnd2 : (l2.map (·.fullName)).Nodup := ((hperm.map _).nodup_iff).mp hnd
  have hmem2 : svc ∈ l2 := hperm.mem_iff.mp hmem
  have e1 := walkAll_mem l1 {} st1 svc hnd hmem rfl h1
  have e2 := walkAll_mem l2 {} st2 svc hnd2 hmem2 rfl h2
  have heq : lookupSchema st1 svc.fullName = lookupSchema st2 svc.fullName := by
    have := e1.symm.trans e2
    simpa using this
  refine ⟨heq, by rw [heq], ?_, ?_⟩
  · unfold runAll
    rw [h1]
  · unfold runAll
    rw [h2]

/-- C8, witnessed on two services walked in both orders. -/
theorem c8_determinism_witness :
    ([wService, wServiceB].Perm [wServiceB, wService]) ∧
    (([wService, wServiceB].map (·.fullName)).Nodup) ∧
    walkAll wEnv 9 {} [wService, wServiceB] = some wStateAB ∧
    walkAll wEnv 9 {} [wServiceB, wService] = some wStateBA ∧
    wService ∈ [wService, wServiceB] ∧
    (lookupSchema wStateAB wService.fullName =
        lookupSchema wStateBA wService.fullName ∧
      wRender wService (lookupSchema wStateAB wService.fullName) =
        wRender wService (lookupSchema wStateBA wService.fullName) ∧
      runAll wEnv 9 wRender [wService, wServiceB] =
        some (outputsFor wRender wStateAB [wService, wServiceB]) ∧
      runAll wEnv 9 wRender [wServiceB, wService] =
        some (outputsFor wRender wStateBA [wServiceB, wService])) :=
  ⟨List.Perm.swap wServiceB wService [], by decide, rfl, rfl, by decide,
    c8_determinism wEnv 9 wRender [wService, wServiceB]
      [wServiceB, wService] wStateAB wStateBA
      (List.Perm.swap wServiceB wService []) (by decide) rfl rfl
      wService (by decide)⟩
